import Mathlib

/-!
# Type-level exercises of `cxx-metaprog`, embedded in Lean

Three translation units are modelled:

* `slamecka1.cpp`: type-level lists of integers (`Vector<Xs...>`) and the
  metafunctions over them;
* `reverse_template_args.hpp`: reversal of a template argument pack;
* `visit_tuple.hpp`: dispatch of a runtime index to a tuple element.

A template instantiation is a function call: a metafunction becomes a Lean
function from its template arguments to its `::type` / `::value`, a partial
specialisation becomes a match arm, and an instantiation the compiler rejects
becomes `none` or `Except.error`.

Template arguments of type `int` are modelled by `Int`: the code only compares
them (`<=`, `>=`, `==`), it never does arithmetic on them, so every statement
proved for all of `Int` holds in particular for the values of a 32-bit `int`.
Template arguments of type `size_t` are indices and countdowns bounded by the
length of a template argument pack; they are modelled by `Nat`.
-/

namespace Slamecka

/-! ## `slamecka1.cpp` -/

/-- Embedding of `template <int... Xs> struct Vector {}`: the type is determined by its
argument pack, so a vector is the list of its arguments. -/
abbrev Vector := List Int

/-- Embedding of `Prepend<X, Vector<Ys...>>::type = Vector<X, Ys...>`. -/
def PrependT (X : Int) (V : Vector) : Vector :=
  X :: V

/-- Embedding of `Append<X, V>::type`: two specialisations, on the empty vector and on
`Vector<Y, Zs...>`. -/
def AppendT (X : Int) : Vector → Vector
  | [] => [X]
  | Y :: Zs => PrependT Y (AppendT X Zs)

/-- Embedding of `RemoveFirst<X, V>::type`: removes the first occurrence of `X`. -/
def RemoveFirstT (X : Int) : Vector → Vector
  | [] => []
  | Y :: Zs => if X = Y then Zs else PrependT Y (RemoveFirstT X Zs)

/-- Embedding of `Length<Vector<Xs...>>::value = sizeof...(Xs)`. -/
abbrev length (V : Vector) : Nat :=
  List.length V

/-- Embedding of `operator+(MinHelper<X>, MinHelper<Y>)`: `MinHelper<X>` when `X <= Y`,
otherwise `MinHelper<Y>`. -/
def minHelperPlus (X Y : Int) : Int :=
  if X ≤ Y then X else Y

/-- The unary right fold `(MinHelper<Xs>{} + ...)` over a pack with first
element `X` and remaining elements `Ys`: `X + (Y1 + (... + Yn))`. -/
def minFold (X : Int) : List Int → Int
  | [] => X
  | Y :: Ys => minHelperPlus X (minFold Y Ys)

/-- Embedding of `MinV<V> = Min<V>::value`. A unary fold over `+` has no value
for the empty pack, so `Min<Vector<>>` does not compile: `none`. -/
def MinV : Vector → Option Int
  | [] => none
  | X :: Xs => some (minFold X Xs)

/-- Embedding of `Sort<V>::type`: the full specialisation for `Vector<>`, the partial
specialisation for `Vector<Y>`, and the general case, which prepends the
minimum to the sorted rest. In the general case the pack has at least two
elements, so `MinV<Vector<Xs...>>` is `minFold X (Y :: Zs)`, the value of
`MinV (X :: Y :: Zs)`. -/
def SortT : Vector → Vector
  | [] => []
  | [Y] => [Y]
  | X :: Y :: Zs =>
    PrependT (minFold X (Y :: Zs))
      (SortT (RemoveFirstT (minFold X (Y :: Zs)) (X :: Y :: Zs)))
termination_by V => V.length
decreasing_by
  have hmem : ∀ (A : Int) (Bs : List Int), minFold A Bs ∈ A :: Bs := by
    intro A Bs
    induction Bs generalizing A with
    | nil => simp [minFold]
    | cons B Bs ih =>
      simp only [minFold, minHelperPlus]
      split
      · simp
      · exact List.mem_cons_of_mem _ (ih B)
  have hlen : ∀ (A : Int) (W : List Int), A ∈ W →
      (RemoveFirstT A W).length + 1 = W.length := by
    intro A W
    induction W with
    | nil => intro h; simp at h
    | cons B Bs ih =>
      intro h
      simp only [RemoveFirstT, PrependT]
      by_cases hab : A = B
      · simp [hab]
      · have hin : A ∈ Bs := by
          rcases List.mem_cons.mp h with h1 | h1
          · exact absurd h1 hab
          · exact h1
        simp [hab, ih hin]
  have h := hlen (minFold X (Y :: Zs)) (X :: Y :: Zs) (hmem X (Y :: Zs))
  simp only [List.length_cons] at h ⊢
  omega

/-- Embedding of `Uniq<V>::type`: collapses runs of equal adjacent elements. -/
def UniqT : Vector → Vector
  | [] => []
  | [X] => [X]
  | X :: Y :: Zs => if X = Y then UniqT (X :: Zs) else PrependT X (UniqT (Y :: Zs))
termination_by V => V.length

/-- Embedding of `Set<Xs...>::type = UniqT<SortT<Vector<Xs...>>>`. -/
def SetT (Xs : List Int) : Vector :=
  UniqT (SortT Xs)

/-- Embedding of `SetFrom<Vector<Xs...>>::type = SetT<Xs...>`. -/
def SetFromT (V : Vector) : Vector :=
  SetT V

/-- A template instantiation that the compiler rejects: either a failed
`static_assert`, reported with its message, or a call for which overload
resolution finds no viable function, reported with the compiler's own
diagnostic. -/
inductive CompileError where
  | staticAssert (message : String)
  | noMatchingFunction (callee : String)
  deriving DecidableEq, Repr

/-- The operand types of the fold in `Get`: `GetInitiator<Countdown>` and
`GetTerminator<X>`. -/
inductive GetFold where
  | GetInitiator (Countdown : Nat)
  | GetTerminator (X : Int)
  deriving DecidableEq, Repr

/-- The two overloads of `operator+` on `GetInitiator<Countdown>` and
`GetTerminator<X>`, with a `std::integral_constant<int, X>` on the right. -/
def GetFold.plus : GetFold → Int → GetFold
  | GetInitiator Countdown, X =>
    if Countdown = 0 then GetTerminator X else GetInitiator (Countdown - 1)
  | GetTerminator X, _ => GetTerminator X

/-- The overload `getTerminatorValue(GetTerminator<X>)` returns `X`. No overload of
`getTerminatorValue` takes a `GetInitiator`, so that call does not compile. -/
def GetFold.getTerminatorValue : GetFold → Except CompileError Int
  | GetTerminator X => Except.ok X
  | GetInitiator _ => Except.error (CompileError.noMatchingFunction "getTerminatorValue")

/-- Embedding of `checkBoundaries<Index, Length>()`: `static_assert(Index <= Length, ...)`,
then `return 0`. -/
def checkBoundaries (Index Length : Nat) : Except CompileError Int :=
  if Index ≤ Length then Except.ok 0
  else Except.error (CompileError.staticAssert "Get: index out of range")

/-- Embedding of `Get<Index, Vector<Xs...>>::value`: the comma expression of the bounds
check and of the binary left fold
`(GetInitiator<Index>{} + ... + std::integral_constant<int, Xs>{})`. -/
def GetV (Index : Nat) (V : Vector) : Except CompileError Int :=
  match checkBoundaries Index V.length with
  | Except.error e => Except.error e
  | Except.ok _ =>
    GetFold.getTerminatorValue (V.foldl GetFold.plus (GetFold.GetInitiator Index))

/-- The operand types of the fold in `BisectLeft`:
`BisectInitiator<Index, LowerBound>` and `BisectTerminator<Index>`. -/
inductive BisectFold where
  | BisectInitiator (Index : Nat) (LowerBound : Int)
  | BisectTerminator (Index : Nat)
  deriving DecidableEq, Repr

/-- The two overloads of `operator+` on `BisectInitiator<Index, LowerBound>`
and `BisectTerminator<Index>`. -/
def BisectFold.plus : BisectFold → Int → BisectFold
  | BisectInitiator Index LowerBound, X =>
    if X ≥ LowerBound then BisectTerminator Index
    else BisectInitiator (Index + 1) LowerBound
  | BisectTerminator Index, _ => BisectTerminator Index

/-- The two overloads of `getTerminatorValue` for the bisect types; both
`return Index` as an `int`. `Index` never exceeds the number of template
arguments of the vector, which no implementation lets reach `2^31`, so the
conversion from `size_t` keeps the value. -/
def BisectFold.getTerminatorValue : BisectFold → Int
  | BisectTerminator Index => Int.ofNat Index
  | BisectInitiator Index _ => Int.ofNat Index

/-- Embedding of `BisectLeft<LowerBound, Vector<Xs...>>::value`: the binary left fold
`(BisectInitiator<0, LowerBound>{} + ... + std::integral_constant<int, Xs>{})`. -/
def BisectLeftV (LowerBound : Int) (V : Vector) : Int :=
  BisectFold.getTerminatorValue
    (V.foldl BisectFold.plus (BisectFold.BisectInitiator 0 LowerBound))

/-- Embedding of `Insert<Index, X, V>::type`. The specialisation `Insert<0, X, V>` prepends;
the specialisation for `Index != 0` (the `enable_if` one) needs a vector
`Vector<Y, Zs...>` with a first element. For `Index != 0` and the empty vector
only the undefined primary template is left, so `::type` does not exist:
`none`. -/
def InsertT : Nat → Int → Vector → Option Vector
  | 0, X, V => some (PrependT X V)
  | Index + 1, X, Y :: Zs => (InsertT Index X Zs).map (PrependT Y)
  | _ + 1, _, [] => none

/-- Classical binary search for the lower bound of `n` in `arr` between the
positions `lo` and `hi` (the `bisect_left` loop): halve the interval, go right
when the middle element is `< n`, left otherwise. -/
def bisectLeftLoop (n : Int) (arr : Vector) (lo hi : Nat) : Nat :=
  if h : lo < hi then
    let mid := (lo + hi) / 2
    if arr.getD mid 0 < n then bisectLeftLoop n arr (mid + 1) hi
    else bisectLeftLoop n arr lo mid
  else lo
termination_by hi - lo
decreasing_by
  all_goals simp_wf
  all_goals omega

/-- Classical `bisect_left(arr, n)`: the loop started on the whole array. -/
def bisectLeftClassic (n : Int) (arr : Vector) : Nat :=
  bisectLeftLoop n arr 0 arr.length

end Slamecka

namespace ReverseArgs

/-! ## `reverse_template_args.hpp`

Types are the elements of an arbitrary type `τ` of type names; a template
`template <class...> class Template` is a function from argument lists. -/

/-- Embedding of `template <class... Ts> struct Tag {}`: a type list. -/
structure Tag (τ : Type) where
  Ts : List τ
  deriving DecidableEq, Repr

/-- Embedding of `Append<T, Tag<Ts...>>::Type = Tag<Ts..., T>`. -/
def Append {τ : Type} (T : τ) : Tag τ → Tag τ
  | ⟨Ts⟩ => ⟨Ts ++ [T]⟩

/-- Embedding of `Revert<Ts...>::Type`: `Tag<>` for the empty pack (primary template),
`Append<T, Revert<Ts...>::Type>::Type` for `Revert<T, Ts...>`. -/
def Revert {τ : Type} : List τ → Tag τ
  | [] => ⟨[]⟩
  | T :: Ts => Append T (Revert Ts)

/-- Embedding of `ApplyTemplate<Template, Tag<Args...>>::Type = Template<Args...>`. -/
def ApplyTemplate {τ σ : Type} (Template : List τ → σ) : Tag τ → σ
  | ⟨Args⟩ => Template Args

/-- Embedding of `ReverseTemplateArgs<Template, Ts...>`. -/
def ReverseTemplateArgs {τ σ : Type} (Template : List τ → σ) (Ts : List τ) : σ :=
  ApplyTemplate Template (Revert Ts)

/-- The types that occur in the header's own test. -/
inductive CxxType where
  | voidPtr
  | int
  | bool
  | tuple (Ts : List CxxType)

/-- Embedding of `ReverseTuple<Ts...> = ReverseTemplateArgs<std::tuple, Ts...>`. -/
def ReverseTuple (Ts : List CxxType) : CxxType :=
  ReverseTemplateArgs CxxType.tuple Ts

end ReverseArgs

namespace VisitTuple

/-! ## `visit_tuple.hpp`

Element types are named by the elements of a type `U`, and `El T` is the type
of the values of the C++ type named `T`. A visitor is a callable that accepts
every such type (an overload set or a generic lambda) and, as `VisitResult`
demands, has one result type `R`. -/

/-- The type `IdenticalTypeHelper<T, Ts...>::Type` is `T` when every `Ts` is the same
type as `T` (`enable_if_t` of the fold over `&&`); the primary template is
only declared, so there is no type for the empty pack. -/
def IdenticalType {ρ : Type} [DecidableEq ρ] : List ρ → Option ρ
  | [] => none
  | T :: Ts => if Ts.all (fun S => decide (T = S)) then some T else none

/-- Embedding of `std::tuple<Ts...>`. -/
inductive Tuple {U : Type} (El : U → Type) : List U → Type where
  | nil : Tuple El []
  | cons {T : U} {Ts : List U} (head : El T) (tail : Tuple El Ts) : Tuple El (T :: Ts)

/-- Embedding of `std::get<Index>(tuple)`; `Index` is below the tuple size, as `std::get`
requires of its template argument. -/
def Tuple.get {U : Type} {El : U → Type} :
    {Ts : List U} → Tuple El Ts → (Index : Fin Ts.length) → El (Ts.get Index)
  | _ :: _, Tuple.cons head _, ⟨0, _⟩ => head
  | _ :: _, Tuple.cons _ tail, ⟨Index + 1, h⟩ => tail.get ⟨Index, Nat.lt_of_succ_lt_succ h⟩

/-- Embedding of `TupleIndices<Tuple> = std::make_index_sequence<tuple_size>`: the indices
`0, ..., size - 1`. -/
def TupleIndices {U : Type} (Ts : List U) : List (Fin Ts.length) :=
  List.finRange Ts.length

/-- Embedding of `VisitResult<Visitor, Tuple>`: the one type of the visitor's results on
the elements of the tuple; `res T` names `std::invoke_result_t` of the visitor
on an element of type `T`. -/
def VisitResult {U ρ : Type} [DecidableEq ρ] (res : U → ρ) (Ts : List U) : Option ρ :=
  IdenticalType ((TupleIndices Ts).map (fun Index => res (Ts.get Index)))

/-- Embedding of `VisitFunc<Visitor, Tuple>`: pointer to a function of the visitor and the
tuple. -/
abbrev VisitFunc {U : Type} (El : U → Type) (R : Type) (Ts : List U) : Type :=
  ((T : U) → El T → R) → Tuple El Ts → R

/-- Embedding of `VisitIndex<Index>(visitor, tuple)`: invokes the visitor on
`std::get<Index>(tuple)`. -/
def VisitIndex {U : Type} {El : U → Type} {R : Type} {Ts : List U}
    (Index : Fin Ts.length) : VisitFunc El R Ts :=
  fun visitor tuple => visitor (Ts.get Index) (tuple.get Index)

/-- Embedding of `PrepareVisitHelpers(std::index_sequence<Indices...>)`: the array
`{VisitIndex<Indices>...}`. -/
def PrepareVisitHelpers {U : Type} {El : U → Type} {R : Type} {Ts : List U}
    (Indices : List (Fin Ts.length)) : Array (VisitFunc El R Ts) :=
  (Indices.map (fun Index => VisitIndex Index)).toArray

/-- Embedding of `Visit(visitor, tuple, index)`: `helpers[index](visitor, tuple)`.
`std::array::operator[]` is not bounds-checked; an index outside the table has
no defined result: `none`. -/
def Visit {U : Type} {El : U → Type} {R : Type} {Ts : List U}
    (visitor : (T : U) → El T → R) (tuple : Tuple El Ts) (index : Nat) : Option R :=
  match (PrepareVisitHelpers (TupleIndices Ts) : Array (VisitFunc El R Ts)).get? index with
  | some helper => some (helper visitor tuple)
  | none => none

/-- Names of the element types of the example tuple. -/
inductive ExTy where
  | int
  | bool
  deriving DecidableEq, Repr

/-- Values of the example element types. -/
def ExTy.El : ExTy → Type
  | ExTy.int => Int
  | ExTy.bool => Bool

/-- An overloaded visitor with result type `Int` on both element types. -/
def exVisitor : (T : ExTy) → ExTy.El T → Int
  | ExTy.int => fun (x : Int) => x + 1
  | ExTy.bool => fun (b : Bool) => if b then 1 else 0

/-- The tuple `std::tuple<int, bool, int>{7, true, -3}`. -/
def exTuple : Tuple ExTy.El [ExTy.int, ExTy.bool, ExTy.int] :=
  Tuple.cons (7 : Int) (Tuple.cons true (Tuple.cons (-3 : Int) Tuple.nil))

end VisitTuple

/-! ## Properties of `slamecka1.cpp` -/

namespace Slamecka

/-! ### The source's own `static_assert` tests -/

theorem test_Sort_286 : SortT [4, 1, 2, 5, 6, 3] = [1, 2, 3, 4, 5, 6] := by
  simp [SortT, minFold, minHelperPlus, RemoveFirstT, PrependT]

theorem test_Sort_287 : SortT [3, 3, 1, 1, 2, 2] = [1, 1, 2, 2, 3, 3] := by
  simp [SortT, minFold, minHelperPlus, RemoveFirstT, PrependT]

theorem test_Uniq_321 : UniqT [1, 1, 2, 2, 1, 1] = [1, 2, 1] := by
  simp [UniqT, PrependT]

theorem test_Set_336 : SetT [2, 1, 3, 1, 2, 3] = SetT [1, 2, 3] := by
  simp [SetT, UniqT, SortT, minFold, minHelperPlus, RemoveFirstT, PrependT]

theorem test_Get_406_408 :
    GetV 0 [0, 1, 2] = Except.ok 0 ∧ GetV 1 [0, 1, 2] = Except.ok 1 ∧
      GetV 2 [0, 1, 2] = Except.ok 2 := by
  simp [GetV, checkBoundaries, GetFold.plus, GetFold.getTerminatorValue]

theorem test_BisectLeft_460_464 :
    BisectLeftV 3 [0, 1, 2, 3, 4] = 3 ∧ BisectLeftV 3 [0, 1, 2, 4, 5] = 3 ∧
      BisectLeftV 9 [0, 1, 2, 4, 5] = 5 ∧ BisectLeftV (-1) [0, 1, 2, 4, 5] = 0 ∧
      BisectLeftV 2 [0, 2, 2, 2, 2, 2] = 1 := by
  decide

theorem test_Insert_492_495 :
    InsertT 0 3 [4, 5, 6] = some [3, 4, 5, 6] ∧ InsertT 1 3 [4, 5, 6] = some [4, 3, 5, 6] ∧
      InsertT 2 3 [4, 5, 6] = some [4, 5, 3, 6] ∧ InsertT 3 3 [4, 5, 6] = some [4, 5, 6, 3] := by
  decide

/-! ### `Min` and `RemoveFirst` -/

theorem test_Min_253_255 :
    MinV [3, 1, 2] = some 1 ∧ MinV [1, 2, 3] = some 1 ∧ MinV [3, 2, 1] = some 1 := by
  decide

theorem MinV_cons (X : Int) (Xs : List Int) : MinV (X :: Xs) = some (minFold X Xs) :=
  rfl

theorem minFold_mem (X : Int) (Ys : List Int) : minFold X Ys ∈ X :: Ys := by
  induction Ys generalizing X with
  | nil => simp [minFold]
  | cons Y Ys ih =>
    simp only [minFold, minHelperPlus]
    split
    · simp
    · exact List.mem_cons_of_mem _ (ih Y)

theorem minFold_le (X : Int) (Ys : List Int) : ∀ z ∈ X :: Ys, minFold X Ys ≤ z := by
  induction Ys generalizing X with
  | nil =>
    intro z hz
    simp only [List.mem_singleton] at hz
    simp [minFold, hz]
  | cons Y Ys ih =>
    intro z hz
    simp only [minFold, minHelperPlus]
    rcases List.mem_cons.mp hz with h1 | h1
    · subst h1
      split <;> omega
    · have h2 := ih Y z h1
      split <;> omega

theorem RemoveFirstT_perm (X : Int) (V : Vector) (h : X ∈ V) :
    List.Perm V (X :: RemoveFirstT X V) := by
  induction V with
  | nil => simp at h
  | cons Y Zs ih =>
    simp only [RemoveFirstT, PrependT]
    by_cases hxy : X = Y
    · simp [hxy]
    · have hmem : X ∈ Zs := by
        rcases List.mem_cons.mp h with h1 | h1
        · exact absurd h1 hxy
        · exact h1
      simp only [hxy, if_false]
      exact ((ih hmem).cons Y).trans (List.Perm.swap X Y _)

/-! ### `Sort` -/

theorem SortT_perm (V : Vector) : List.Perm (SortT V) V := by
  induction V using SortT.induct with
  | case1 => simp [SortT]
  | case2 Y => simp [SortT]
  | case3 X Y Zs ih =>
    rw [SortT]
    simp only [PrependT]
    exact (ih.cons _).trans (RemoveFirstT_perm _ _ (minFold_mem X (Y :: Zs))).symm

theorem SortT_sorted (V : Vector) : List.Sorted (fun a b : Int => a ≤ b) (SortT V) := by
  induction V using SortT.induct with
  | case1 => simp [SortT]
  | case2 Y => simp [SortT]
  | case3 X Y Zs ih =>
    rw [SortT]
    simp only [PrependT]
    refine List.sorted_cons.mpr ⟨?_, ih⟩
    intro b hb
    have hb1 : b ∈ RemoveFirstT (minFold X (Y :: Zs)) (X :: Y :: Zs) :=
      (SortT_perm _).mem_iff.mp hb
    have hb2 : b ∈ X :: Y :: Zs :=
      (RemoveFirstT_perm _ _ (minFold_mem X (Y :: Zs))).mem_iff.mpr
        (List.mem_cons_of_mem _ hb1)
    exact minFold_le X (Y :: Zs) b hb2

/-! ### `Uniq` and `Set` -/

theorem UniqT_of_sorted (V : Vector) (hs : List.Sorted (fun a b : Int => a ≤ b) V) :
    List.Sorted (fun a b : Int => a < b) (UniqT V) ∧ ∀ v, v ∈ UniqT V ↔ v ∈ V := by
  induction V using UniqT.induct with
  | case1 => simp [UniqT]
  | case2 X => simp [UniqT]
  | case3 X Zs ih =>
    rw [UniqT]
    simp only [if_true]
    have hs1 : List.Sorted (fun a b : Int => a ≤ b) (X :: Zs) := (List.sorted_cons.mp hs).2
    obtain ⟨h1, h2⟩ := ih hs1
    refine ⟨h1, ?_⟩
    intro v
    rw [h2 v]
    simp
  | case4 X Y Zs hxy ih =>
    rw [UniqT]
    simp only [hxy, if_false, PrependT]
    have hs0 := List.sorted_cons.mp hs
    obtain ⟨h1, h2⟩ := ih hs0.2
    have hxY : X ≤ Y := hs0.1 Y (List.mem_cons_self _ _)
    have hYs := List.sorted_cons.mp hs0.2
    refine ⟨List.sorted_cons.mpr ⟨?_, h1⟩, ?_⟩
    · intro b hb
      have hb1 : b ∈ Y :: Zs := (h2 b).mp hb
      have hYb : Y ≤ b := by
        rcases List.mem_cons.mp hb1 with h3 | h3
        · omega
        · exact hYs.1 b h3
      omega
    · intro v
      simp only [List.mem_cons, h2 v]

theorem SetT_strictly_sorted (Xs : List Int) :
    List.Sorted (fun a b : Int => a < b) (SetT Xs) :=
  (UniqT_of_sorted (SortT Xs) (SortT_sorted Xs)).1

theorem mem_SetT (Xs : List Int) (v : Int) : v ∈ SetT Xs ↔ v ∈ Xs := by
  unfold SetT
  rw [(UniqT_of_sorted (SortT Xs) (SortT_sorted Xs)).2 v]
  exact (SortT_perm Xs).mem_iff

theorem SetT_ext (Xs Ys : List Int) (h : ∀ v, v ∈ Xs ↔ v ∈ Ys) : SetT Xs = SetT Ys := by
  have hx := SetT_strictly_sorted Xs
  have hy := SetT_strictly_sorted Ys
  have hp : List.Perm (SetT Xs) (SetT Ys) := by
    refine (List.perm_ext_iff_of_nodup hx.nodup hy.nodup).mpr ?_
    intro v
    rw [mem_SetT, mem_SetT, h v]
  exact List.eq_of_perm_of_sorted hp hx hy

/-! ### `Get` -/

theorem foldl_GetTerminator (X : Int) (V : Vector) :
    V.foldl GetFold.plus (GetFold.GetTerminator X) = GetFold.GetTerminator X := by
  induction V with
  | nil => rfl
  | cons Y Zs ih => simpa [List.foldl_cons, GetFold.plus] using ih

theorem foldl_GetInitiator_lt (V : Vector) (Countdown : Nat) (h : Countdown < V.length) :
    V.foldl GetFold.plus (GetFold.GetInitiator Countdown) = GetFold.GetTerminator V[Countdown] := by
  induction V generalizing Countdown with
  | nil => simp at h
  | cons Y Zs ih =>
    cases Countdown with
    | zero => simp [List.foldl_cons, GetFold.plus, foldl_GetTerminator]
    | succ c =>
      have hc : c < Zs.length := by simpa using h
      simp [List.foldl_cons, GetFold.plus, ih c hc]

theorem foldl_GetInitiator_ge (V : Vector) (Countdown : Nat) (h : V.length ≤ Countdown) :
    V.foldl GetFold.plus (GetFold.GetInitiator Countdown) =
      GetFold.GetInitiator (Countdown - V.length) := by
  induction V generalizing Countdown with
  | nil => simp
  | cons Y Zs ih =>
    cases Countdown with
    | zero => simp at h
    | succ c =>
      have hc : Zs.length ≤ c := by simpa using h
      simp [List.foldl_cons, GetFold.plus, ih c hc]

theorem checkBoundaries_of_le (Index Length : Nat) (h : Index ≤ Length) :
    checkBoundaries Index Length = Except.ok 0 := by
  simp [checkBoundaries, h]

theorem GetV_of_lt (Index : Nat) (V : Vector) (h : Index < V.length) :
    GetV Index V = Except.ok V[Index] := by
  simp [GetV, checkBoundaries_of_le Index V.length (Nat.le_of_lt h),
    foldl_GetInitiator_lt V Index h, GetFold.getTerminatorValue]

theorem GetV_of_gt (Index : Nat) (V : Vector) (h : V.length < Index) :
    GetV Index V = Except.error (CompileError.staticAssert "Get: index out of range") := by
  simp [GetV, checkBoundaries, Nat.not_le.mpr h]

theorem GetV_at_length (V : Vector) :
    GetV V.length V =
      Except.error (CompileError.noMatchingFunction "getTerminatorValue") := by
  simp [GetV, checkBoundaries, foldl_GetInitiator_ge V V.length (Nat.le_refl _),
    GetFold.getTerminatorValue]

/-! ### `BisectLeft` -/

theorem foldl_BisectTerminator (Index : Nat) (V : Vector) :
    V.foldl BisectFold.plus (BisectFold.BisectTerminator Index) =
      BisectFold.BisectTerminator Index := by
  induction V with
  | nil => rfl
  | cons Y Zs ih => simpa [List.foldl_cons, BisectFold.plus] using ih

theorem foldl_BisectInitiator (Index : Nat) (n : Int) (V : Vector) :
    BisectFold.getTerminatorValue
        (V.foldl BisectFold.plus (BisectFold.BisectInitiator Index n)) =
      Int.ofNat (Index + V.findIdx (fun x => decide (x ≥ n))) := by
  induction V generalizing Index with
  | nil => simp [BisectFold.getTerminatorValue]
  | cons Y Zs ih =>
    rw [List.foldl_cons, List.findIdx_cons]
    by_cases hy : Y ≥ n
    · simp [BisectFold.plus, hy, foldl_BisectTerminator, BisectFold.getTerminatorValue]
    · simp only [BisectFold.plus, hy, if_false, ih (Index + 1), decide_False, cond_false]
      congr 1
      omega

theorem BisectLeftV_eq_findIdx (n : Int) (V : Vector) :
    BisectLeftV n V = Int.ofNat (V.findIdx (fun x => decide (x ≥ n))) := by
  simp [BisectLeftV, foldl_BisectInitiator]

/-! ### `Insert` -/

theorem AppendT_eq (X : Int) (V : Vector) : AppendT X V = V ++ [X] := by
  induction V with
  | nil => rfl
  | cons Y Zs ih => simp [AppendT, PrependT, ih]

theorem InsertT_eq (Index : Nat) (X : Int) (V : Vector) (h : Index ≤ V.length) :
    InsertT Index X V = some (V.take Index ++ X :: V.drop Index) := by
  induction V generalizing Index with
  | nil =>
    have h0 : Index = 0 := by simpa using h
    subst h0
    simp [InsertT, PrependT]
  | cons Y Zs ih =>
    cases Index with
    | zero => simp [InsertT, PrependT]
    | succ i =>
      have hi : i ≤ Zs.length := by simpa using h
      simp [InsertT, PrependT, ih i hi]

/-! ### Classical binary search on a sorted vector -/

theorem sorted_getElem_le (arr : Vector) (hs : List.Sorted (fun a b : Int => a ≤ b) arr)
    (i j : Nat) (hi : i < arr.length) (hj : j < arr.length) (hij : i ≤ j) :
    arr[i] ≤ arr[j] := by
  rcases Nat.eq_or_lt_of_le hij with h | h
  · subst h
    exact Int.le_refl _
  · exact List.pairwise_iff_getElem.mp hs i j hi hj h

theorem bisectLeftLoop_spec (n : Int) (arr : Vector)
    (hs : List.Sorted (fun a b : Int => a ≤ b) arr) (lo hi : Nat) :
    lo ≤ hi → hi ≤ arr.length →
    (∀ i (h : i < arr.length), i < lo → arr[i] < n) →
    (∀ i (h : i < arr.length), hi ≤ i → n ≤ arr[i]) →
    lo ≤ bisectLeftLoop n arr lo hi ∧ bisectLeftLoop n arr lo hi ≤ hi ∧
      (∀ i (h : i < arr.length), i < bisectLeftLoop n arr lo hi → arr[i] < n) ∧
      (∀ i (h : i < arr.length), bisectLeftLoop n arr lo hi ≤ i → n ≤ arr[i]) := by
  induction lo, hi using bisectLeftLoop.induct n arr with
  | case1 lo hi hlt mid hmid ih =>
    intro _ hhi hbelow habove
    have hm : mid < arr.length := by
      show (lo + hi) / 2 < arr.length
      omega
    have hmid1 : arr[mid] < n := by
      rw [List.getD_eq_getElem arr 0 hm] at hmid
      exact hmid
    have hle1 : mid + 1 ≤ hi := by
      show (lo + hi) / 2 + 1 ≤ hi
      omega
    have hlom : lo ≤ mid + 1 := by
      show lo ≤ (lo + hi) / 2 + 1
      omega
    have hbelow1 : ∀ i (h : i < arr.length), i < mid + 1 → arr[i] < n := by
      intro i h hi1
      have := sorted_getElem_le arr hs i mid h hm (Nat.lt_succ_iff.mp hi1)
      omega
    obtain ⟨r1, r2, r3, r4⟩ := ih hle1 hhi hbelow1 habove
    rw [bisectLeftLoop]
    simp only [hlt, dite_true]
    rw [if_pos hmid]
    exact ⟨Nat.le_trans hlom r1, r2, r3, r4⟩
  | case2 lo hi hlt mid hmid ih =>
    intro _ hhi hbelow _
    have hmhi : mid < hi := by
      show (lo + hi) / 2 < hi
      omega
    have hm : mid < arr.length := Nat.lt_of_lt_of_le hmhi hhi
    have hmid1 : n ≤ arr[mid] := by
      rw [List.getD_eq_getElem arr 0 hm] at hmid
      omega
    have hlom : lo ≤ mid := by
      show lo ≤ (lo + hi) / 2
      omega
    have habove1 : ∀ i (h : i < arr.length), mid ≤ i → n ≤ arr[i] := by
      intro i h hi1
      have := sorted_getElem_le arr hs mid i hm h hi1
      omega
    obtain ⟨r1, r2, r3, r4⟩ := ih hlom (Nat.le_of_lt hm) hbelow habove1
    rw [bisectLeftLoop]
    simp only [hlt, dite_true]
    rw [if_neg hmid]
    exact ⟨r1, Nat.le_trans r2 (Nat.le_of_lt hmhi), r3, r4⟩
  | case3 lo hi hlt =>
    intro hle _ hbelow habove
    have heq : lo = hi := by omega
    rw [bisectLeftLoop]
    simp only [hlt, dite_false]
    refine ⟨Nat.le_refl _, hle, hbelow, ?_⟩
    intro i h hi1
    exact habove i h (by omega)

theorem bisectLeftClassic_spec (n : Int) (arr : Vector)
    (hs : List.Sorted (fun a b : Int => a ≤ b) arr) :
    bisectLeftClassic n arr ≤ arr.length ∧
      (∀ i (h : i < arr.length), i < bisectLeftClassic n arr → arr[i] < n) ∧
      (∀ i (h : i < arr.length), bisectLeftClassic n arr ≤ i → n ≤ arr[i]) := by
  have h := bisectLeftLoop_spec n arr hs 0 arr.length (Nat.zero_le _) (Nat.le_refl _)
    (fun i _ hi => absurd hi (Nat.not_lt_zero i))
    (fun i h hi => absurd h (Nat.not_lt.mpr hi))
  exact ⟨h.2.1, h.2.2.1, h.2.2.2⟩

theorem findIdx_below (n : Int) (arr : Vector) (i : Nat) (h : i < arr.length)
    (hi : i < arr.findIdx (fun x => decide (x ≥ n))) : arr[i] < n := by
  have := List.not_of_lt_findIdx hi
  simpa using this

theorem findIdx_at (n : Int) (arr : Vector)
    (h : arr.findIdx (fun x => decide (x ≥ n)) < arr.length) :
    n ≤ arr[arr.findIdx (fun x => decide (x ≥ n))] := by
  have := @List.findIdx_getElem _ (fun x => decide (x ≥ n)) arr h
  simpa using this

theorem bisectLeftClassic_eq_findIdx (n : Int) (arr : Vector)
    (hs : List.Sorted (fun a b : Int => a ≤ b) arr) :
    bisectLeftClassic n arr = arr.findIdx (fun x => decide (x ≥ n)) := by
  obtain ⟨c1, c2, c3⟩ := bisectLeftClassic_spec n arr hs
  have hk : arr.findIdx (fun x => decide (x ≥ n)) ≤ arr.length := List.findIdx_le_length _
  rcases Nat.lt_trichotomy (bisectLeftClassic n arr) (arr.findIdx (fun x => decide (x ≥ n)))
    with hlt | heq | hgt
  · have hr : bisectLeftClassic n arr < arr.length := Nat.lt_of_lt_of_le hlt hk
    have h1 := findIdx_below n arr _ hr hlt
    have h2 := c3 _ hr (Nat.le_refl _)
    omega
  · exact heq
  · have hr : arr.findIdx (fun x => decide (x ≥ n)) < arr.length := Nat.lt_of_lt_of_le hgt c1
    have h1 := findIdx_at n arr hr
    have h2 := c2 _ hr hgt
    omega

theorem countP_lt_eq_findIdx (n : Int) (arr : Vector)
    (hs : List.Sorted (fun a b : Int => a ≤ b) arr) :
    arr.countP (fun x => decide (x < n)) = arr.findIdx (fun x => decide (x ≥ n)) := by
  induction arr with
  | nil => simp
  | cons Y Zs ih =>
    have hs0 := List.sorted_cons.mp hs
    rw [List.countP_cons, List.findIdx_cons]
    by_cases hy : Y ≥ n
    · have hz : Zs.countP (fun x => decide (x < n)) = 0 := by
        refine List.countP_eq_zero.mpr ?_
        intro a ha
        have := hs0.1 a ha
        simp only [decide_eq_true_eq]
        omega
      have hny : ¬ Y < n := by omega
      simp [hy, hz, hny]
    · have hny : Y < n := by omega
      simp [hy, hny, ih hs0.2]

theorem sorted_above_findIdx (n : Int) (arr : Vector)
    (hs : List.Sorted (fun a b : Int => a ≤ b) arr) (i : Nat) (h : i < arr.length)
    (hi : arr.findIdx (fun x => decide (x ≥ n)) ≤ i) : n ≤ arr[i] := by
  have hk : arr.findIdx (fun x => decide (x ≥ n)) < arr.length := Nat.lt_of_le_of_lt hi h
  have h1 := findIdx_at n arr hk
  have h2 := sorted_getElem_le arr hs _ i hk h hi
  omega

end Slamecka

/-! ## Properties of `reverse_template_args.hpp` -/

namespace ReverseArgs

theorem Revert_eq {τ : Type} (Ts : List τ) : Revert Ts = ⟨Ts.reverse⟩ := by
  induction Ts with
  | nil => rfl
  | cons T Ts ih => simp [Revert, Append, ih]

end ReverseArgs

/-! ## Properties of `visit_tuple.hpp` -/

namespace VisitTuple

theorem IdenticalType_of_all {ρ : Type} [DecidableEq ρ] (r : ρ) (Rs : List ρ)
    (hne : Rs ≠ []) (hall : ∀ S ∈ Rs, S = r) : IdenticalType Rs = some r := by
  cases Rs with
  | nil => exact absurd rfl hne
  | cons T Ts =>
    have hT : T = r := hall T (List.mem_cons_self _ _)
    subst hT
    have hTs : ∀ S ∈ Ts, T = S := fun S hS => (hall S (List.mem_cons_of_mem _ hS)).symm
    simp only [IdenticalType]
    rw [if_pos]
    simpa using hTs

theorem size_PrepareVisitHelpers {U : Type} {El : U → Type} {R : Type} {Ts : List U}
    (Indices : List (Fin Ts.length)) :
    (PrepareVisitHelpers Indices : Array (VisitFunc El R Ts)).size = Indices.length := by
  simp [PrepareVisitHelpers]

theorem get?_PrepareVisitHelpers {U : Type} {El : U → Type} {R : Type} {Ts : List U}
    (i : Nat) (h : i < Ts.length) :
    (PrepareVisitHelpers (TupleIndices Ts) : Array (VisitFunc El R Ts)).get? i =
      some (VisitIndex ⟨i, h⟩) := by
  simp [PrepareVisitHelpers, TupleIndices, h]

end VisitTuple

/-! ## The claims -/

namespace Slamecka

/-- Claim C1: for every integer vector `V`, the empty vector, single-element
vectors and vectors with duplicates included, `Sort<V>::type` is in
non-decreasing order: every element is `<=` the element that follows it. -/
theorem SortT_nondecreasing (V : Vector) :
    List.Chain' (fun a b : Int => a ≤ b) (SortT V) ∧
    List.Sorted (fun a b : Int => a ≤ b) (SortT V) ∧
    ∀ (i : Nat) (a b : Int),
      (SortT V)[i]? = some a → (SortT V)[i + 1]? = some b → a ≤ b := by
  have hs := SortT_sorted V
  refine ⟨List.chain'_iff_pairwise.mpr hs, hs, ?_⟩
  intro i a b ha hb
  obtain ⟨hi, hia⟩ := List.getElem?_eq_some.mp ha
  obtain ⟨hj, hjb⟩ := List.getElem?_eq_some.mp hb
  have := List.pairwise_iff_getElem.mp hs i (i + 1) hi hj (Nat.lt_succ_self i)
  rw [hia, hjb] at this
  exact this

/-- Claim C2: for every integer vector `V`, `Sort<V>::type` is a permutation of
`V`: every value occurs in the result exactly as many times as in `V`, so the
length is kept; `Sort<Vector<3,3,1,1,2,2>>` is `Vector<1,1,2,2,3,3>`. -/
theorem SortT_permutation (V : Vector) :
    List.Perm (SortT V) V ∧
    (∀ v : Int, List.count v (SortT V) = List.count v V) ∧
    length (SortT V) = length V ∧
    SortT [3, 3, 1, 1, 2, 2] = [1, 1, 2, 2, 3, 3] := by
  have hp := SortT_perm V
  exact ⟨hp, fun v => hp.count_eq v, hp.length_eq, test_Sort_287⟩

/-- Claim C3: for every integer `n` and every vector `arr`, sorted or not,
possibly empty, `BisectLeft<n, arr>::value` is the first index `i` such that
`arr[i] >= n`, and it is the length of `arr` if no such index exists. -/
theorem BisectLeftV_first_index (n : Int) (arr : Vector) :
    ∃ k : Nat, BisectLeftV n arr = Int.ofNat k ∧
      k = arr.findIdx (fun x => decide (x ≥ n)) ∧
      k ≤ length arr ∧
      (∀ (i : Nat) (x : Int), i < k → arr[i]? = some x → x < n) ∧
      (∀ x : Int, arr[k]? = some x → x ≥ n) ∧
      ((∀ x ∈ arr, x < n) → k = length arr) := by
  refine ⟨arr.findIdx (fun x => decide (x ≥ n)), BisectLeftV_eq_findIdx n arr, rfl,
    List.findIdx_le_length _, ?_, ?_, ?_⟩
  · intro i x hi hx
    obtain ⟨h1, h2⟩ := List.getElem?_eq_some.mp hx
    rw [← h2]
    exact findIdx_below n arr i h1 hi
  · intro x hx
    obtain ⟨h1, h2⟩ := List.getElem?_eq_some.mp hx
    rw [← h2]
    exact findIdx_at n arr h1
  · intro hall
    refine List.findIdx_eq_length_of_false ?_
    intro x hx
    have := hall x hx
    simp only [decide_eq_false_iff_not]
    omega

/-- Claim C4: for every vector `V` and every index `Index < length(V)`,
`Get<Index, V>::value` is the element of `V` at zero-based position `Index`. -/
theorem GetV_in_bounds (Index : Nat) (V : Vector) (h : Index < length V) :
    GetV Index V = Except.ok (V.get ⟨Index, h⟩) :=
  GetV_of_lt Index V h

/-- Witness of C4 on the source's test `Get<1, Vector<0,1,2>>::value == 1`. -/
theorem GetV_in_bounds_witness :
    1 < length [0, 1, 2] ∧ GetV 1 [0, 1, 2] = Except.ok 1 :=
  ⟨by decide, GetV_in_bounds 1 [0, 1, 2] (by decide)⟩

/-- Claim C5, where the code departs from it: at `Index = length(V)`, which is
outside the bounds, `checkBoundaries<3, 3>` accepts (its assertion is
`Index <= Length`), and `Get<3, Vector<0,1,2>>` is rejected only because
`getTerminatorValue` has no overload for the `GetInitiator<0>` the fold ends
in, not with the message "Get: index out of range"; one position further,
`Get<4, Vector<0,1,2>>`, the bounds check does reject with that message. -/
theorem GetV_at_length_skips_bounds_check :
    checkBoundaries 3 (length [0, 1, 2]) = Except.ok 0 ∧
    GetV 3 [0, 1, 2] = Except.error (CompileError.noMatchingFunction "getTerminatorValue") ∧
    GetV 3 [0, 1, 2] ≠ Except.error (CompileError.staticAssert "Get: index out of range") ∧
    GetV 4 [0, 1, 2] = Except.error (CompileError.staticAssert "Get: index out of range") := by
  refine ⟨checkBoundaries_of_le 3 3 (by decide), GetV_at_length [0, 1, 2], ?_,
    GetV_of_gt 4 [0, 1, 2] (by decide)⟩
  rw [show GetV 3 [0, 1, 2] = _ from GetV_at_length [0, 1, 2]]
  intro h
  cases h

/-- Claim C6: for every vector `V`, integer `X` and position
`Index <= length(V)`, `Insert<Index, X, V>::type` is the first `Index`
elements of `V`, then `X`, then the remaining elements of `V` in their order;
it has `length(V) + 1` elements with `X` at position `Index`, `Insert<0, ...>`
is `Prepend` and `Insert<length(V), ...>` is `Append`. -/
theorem InsertT_spec (Index : Nat) (X : Int) (V : Vector) (h : Index ≤ length V) :
    InsertT Index X V = some (V.take Index ++ [X] ++ V.drop Index) ∧
    length (V.take Index ++ [X] ++ V.drop Index) = length V + 1 ∧
    (V.take Index ++ [X] ++ V.drop Index)[Index]? = some X ∧
    InsertT 0 X V = some (PrependT X V) ∧
    InsertT (length V) X V = some (AppendT X V) := by
  refine ⟨?_, ?_, ?_, ?_, ?_⟩
  · simp [InsertT_eq Index X V h]
  · simp only [length, List.length_append, List.length_take, List.length_drop,
      List.length_singleton]
    have : Index ≤ V.length := h
    omega
  · have hlen : (V.take Index).length = Index := by
      simp only [List.length_take]
      exact Nat.min_eq_left h
    rw [List.append_assoc, List.getElem?_append_right (by omega)]
    simp [hlen]
  · simp [InsertT]
  · rw [InsertT_eq (length V) X V (Nat.le_refl _), AppendT_eq]
    simp

/-- Witness of C6 on the source's test
`Insert<2, 3, Vector<4,5,6>>::type = Vector<4,5,3,6>`. -/
theorem InsertT_spec_witness :
    2 ≤ length [4, 5, 6] ∧ InsertT 2 3 [4, 5, 6] = some [4, 5, 3, 6] :=
  ⟨by decide, (InsertT_spec 2 3 [4, 5, 6] (by decide)).1⟩

/-- Claim C7: for any two integer sequences `Xs` and `Ys` that contain the same
set of distinct values, in any order and with any multiplicities,
`Set<Xs...>::type`, `Set<Ys...>::type` and `SetFrom<Vector<Ys...>>::type` are
all the same vector. -/
theorem SetT_same_values (Xs Ys : List Int) (h : ∀ v : Int, v ∈ Xs ↔ v ∈ Ys) :
    SetT Xs = SetT Ys ∧ SetT Ys = SetFromT Ys ∧ SetT Xs = SetFromT Ys :=
  ⟨SetT_ext Xs Ys h, rfl, SetT_ext Xs Ys h⟩

/-- Witness of C7 on the source's tests: `Set<2,1,3,1,2,3>::type`,
`Set<1,2,3>::type` and `SetFrom<Vector<1,2,3>>::type` agree. -/
theorem SetT_same_values_witness :
    (∀ v : Int, v ∈ [2, 1, 3, 1, 2, 3] ↔ v ∈ [1, 2, 3]) ∧
    SetT [2, 1, 3, 1, 2, 3] = SetT [1, 2, 3] ∧
    SetT [1, 2, 3] = SetFromT [1, 2, 3] ∧
    SetT [2, 1, 3, 1, 2, 3] = SetFromT [1, 2, 3] :=
  have hv : ∀ v : Int, v ∈ [2, 1, 3, 1, 2, 3] ↔ v ∈ [1, 2, 3] := by
    intro v
    simp only [List.mem_cons, List.mem_singleton, List.not_mem_nil, or_false]
    tauto
  ⟨hv, SetT_same_values [2, 1, 3, 1, 2, 3] [1, 2, 3] hv⟩

/-- Claim C10: for every integer `n` and every vector `arr` sorted in
non-decreasing order, `BisectLeft<n, arr>::value`, computed by the
left-to-right fold, equals the index returned by a classical binary search for
the lower bound of `n`: it is the number of elements of `arr` that are `< n`,
every element before that index is `< n` and every element at or after it is
`>= n`. -/
theorem BisectLeftV_refines_bisect_left (n : Int) (arr : Vector)
    (hs : List.Sorted (fun a b : Int => a ≤ b) arr) :
    BisectLeftV n arr = Int.ofNat (bisectLeftClassic n arr) ∧
    BisectLeftV n arr = Int.ofNat (arr.countP (fun x => decide (x < n))) ∧
    (∀ (i : Nat) (x : Int), arr[i]? = some x → Int.ofNat i < BisectLeftV n arr → x < n) ∧
    (∀ (i : Nat) (x : Int), arr[i]? = some x → BisectLeftV n arr ≤ Int.ofNat i → x ≥ n) := by
  rw [BisectLeftV_eq_findIdx n arr, bisectLeftClassic_eq_findIdx n arr hs,
    countP_lt_eq_findIdx n arr hs]
  refine ⟨rfl, rfl, ?_, ?_⟩
  · intro i x hx hi
    obtain ⟨h1, h2⟩ := List.getElem?_eq_some.mp hx
    rw [← h2]
    exact findIdx_below n arr i h1 (Int.ofNat_lt.mp hi)
  · intro i x hx hi
    obtain ⟨h1, h2⟩ := List.getElem?_eq_some.mp hx
    rw [← h2]
    exact sorted_above_findIdx n arr hs i h1 (Int.ofNat_le.mp hi)

/-- Witness of C10 on the source's test
`BisectLeft<3, Vector<0,1,2,4,5>>::value == 3`. -/
theorem BisectLeftV_refines_bisect_left_witness :
    List.Sorted (fun a b : Int => a ≤ b) [0, 1, 2, 4, 5] ∧
    BisectLeftV 3 [0, 1, 2, 4, 5] = Int.ofNat (bisectLeftClassic 3 [0, 1, 2, 4, 5]) ∧
    BisectLeftV 3 [0, 1, 2, 4, 5] = 3 :=
  ⟨by decide, (BisectLeftV_refines_bisect_left 3 [0, 1, 2, 4, 5] (by decide)).1, by decide⟩

end Slamecka

namespace ReverseArgs

/-- Claim C9: for every template `Template` and every list of type arguments
`T1, ..., Tn` (`n >= 0`), `ReverseTemplateArgs<Template, T1, ..., Tn>` is
`Template` applied to the same arguments in exactly reversed order; the
header's test `ReverseTuple<void*, int, bool>` is
`std::tuple<bool, int, void*>`. -/
theorem ReverseTemplateArgs_reverses {τ σ : Type} (Template : List τ → σ) (Ts : List τ) :
    ReverseTemplateArgs Template Ts = Template Ts.reverse ∧
    ReverseTuple [CxxType.voidPtr, CxxType.int, CxxType.bool] =
      CxxType.tuple [CxxType.bool, CxxType.int, CxxType.voidPtr] := by
  refine ⟨?_, rfl⟩
  simp [ReverseTemplateArgs, Revert_eq, ApplyTemplate]

end ReverseArgs

namespace VisitTuple

/-- Claim C8: for every tuple with `n >= 1` elements, every visitor whose
results on all elements have the same type, and every runtime index `i < n`,
`Visit(visitor, tuple, i)` returns the visitor applied to the `i`-th element of
the tuple: `VisitResult` is that one type, the dispatch table built by
`PrepareVisitHelpers` has exactly `n` entries and entry `i` is the accessor
`VisitIndex<i>`, so the lookup `helpers[i]` is in bounds and selects element
`i`. -/
theorem Visit_dispatches {U ρ : Type} [DecidableEq ρ] {El : U → Type} {R : Type}
    (Ts : List U) (res : U → ρ) (r : ρ) (visitor : (T : U) → El T → R)
    (tuple : Tuple El Ts) (i : Nat)
    (hn : 1 ≤ Ts.length) (hres : ∀ T ∈ Ts, res T = r) (hi : i < Ts.length) :
    VisitResult res Ts = some r ∧
    (PrepareVisitHelpers (TupleIndices Ts) : Array (VisitFunc El R Ts)).size = Ts.length ∧
    (PrepareVisitHelpers (TupleIndices Ts) : Array (VisitFunc El R Ts)).get? i =
      some (VisitIndex ⟨i, hi⟩) ∧
    Visit visitor tuple i = some (visitor (Ts.get ⟨i, hi⟩) (tuple.get ⟨i, hi⟩)) := by
  refine ⟨?_, ?_, get?_PrepareVisitHelpers i hi, ?_⟩
  · refine IdenticalType_of_all r _ ?_ ?_
    · intro hnil
      have hlen := congrArg List.length hnil
      simp only [TupleIndices, List.length_map, List.length_finRange,
        List.length_nil] at hlen
      omega
    · intro S hS
      obtain ⟨Index, _, hIndex⟩ := List.mem_map.mp hS
      rw [← hIndex]
      exact hres _ (List.get_mem Ts Index.1 Index.2)
  · rw [size_PrepareVisitHelpers]
    simp [TupleIndices]
  · unfold Visit
    rw [get?_PrepareVisitHelpers i hi]
    rfl

/-- Witness of C8: on `std::tuple<int, bool, int>{7, true, -3}` the overloaded
visitor at runtime index `1` is applied to the `bool` element. -/
theorem Visit_dispatches_witness :
    1 ≤ [ExTy.int, ExTy.bool, ExTy.int].length ∧
    (∀ T ∈ [ExTy.int, ExTy.bool, ExTy.int], (fun _ : ExTy => ExTy.int) T = ExTy.int) ∧
    1 < [ExTy.int, ExTy.bool, ExTy.int].length ∧
    VisitResult (fun _ : ExTy => ExTy.int) [ExTy.int, ExTy.bool, ExTy.int] = some ExTy.int ∧
    Visit exVisitor exTuple 1 = some 1 :=
  have h := Visit_dispatches [ExTy.int, ExTy.bool, ExTy.int] (fun _ : ExTy => ExTy.int)
    ExTy.int exVisitor exTuple 1 (by decide) (fun _ _ => rfl) (by decide)
  ⟨by decide, fun _ _ => rfl, by decide, h.1, h.2.2.2⟩

end VisitTuple
